import Mathlib

/-!
Shallow embedding of the Decrypto guesser decision core (the
internal-representation / unsupervised-guesser notebook).

NumPy `float64` values are idealized as real numbers (`ℝ`), NumPy arrays as
lists.  `np.max`, `np.argmax`, `np.cumsum`, `np.argsort` and `np.trace` are
modelled by the helper functions below with their documented NumPy semantics
(`argmax` returns the first occurrence of the maximum; `argsort` tie order is
implementation-defined in NumPy and modelled as stable here).
-/

/-- Mirrors `ALL_WORDS = ("BOAT", "CAT", "RUM", "DRAG")`. -/
def ALL_WORDS : List String := ["BOAT", "CAT", "RUM", "DRAG"]

/-- Mirrors `ALL_WORD_INDEX = {word: ALL_WORDS.index(word) for word in ALL_WORDS}`. -/
def ALL_WORD_INDEX (word : String) : ℕ := ALL_WORDS.indexOf word

/-- All length-`n` permutations drawn from a pool, in the order
`itertools.permutations` enumerates them (lexicographic for a sorted pool). -/
def permsOfLen : ℕ → List ℕ → List (List ℕ)
  | 0, _ => [[]]
  | n + 1, pool => pool.flatMap (fun x => (permsOfLen n (pool.erase x)).map (fun rest => x :: rest))

/-- Mirrors `ALL_CODES = np.array(list(permutations(range(4), 3)))`. -/
def ALL_CODES : List (List ℕ) := permsOfLen 3 (List.range 4)

/-- Mirrors `LOG_PROB_ZERO = np.float64(-100.0)`. -/
noncomputable def LOG_PROB_ZERO : ℝ := -100

/-- Mirrors the dataclass `NumpyRandomVariable`; both fields are
one-dimensional arrays for every variable the notebook feeds to the engine. -/
structure NumpyRandomVariable where
  log_probabilities : List ℝ
  keyword_indices : List ℕ

/-- Mirrors `keyword_card = (ALL_WORDS[1], ALL_WORDS[0], ALL_WORDS[2], ALL_WORDS[3])`. -/
def keyword_card : List String := [ALL_WORDS.getD 1 "", ALL_WORDS.getD 0 "", ALL_WORDS.getD 2 "", ALL_WORDS.getD 3 ""]

/-- Mirrors `code = (1, 3, 0)`. -/
def code : List ℕ := [1, 3, 0]

/-- The clue-building expression `tuple(keyword_card[i] for i in code)` of the
source, with the code as a parameter (the notebook instantiates it at `code`;
the round-trip property quantifies it over the whole code space). -/
def naive_clue_of (c : List ℕ) : List String := c.map (fun i => keyword_card.getD i "")

/-- Mirrors `naive_clue = tuple(keyword_card[i] for i in code)`. -/
def naive_clue : List String := naive_clue_of code

/-- Mirrors `clue_indices = np.array([ALL_WORD_INDEX[clue] for clue in naive_clue])`. -/
def clue_indices : List ℕ := naive_clue.map ALL_WORD_INDEX

/-- Model of `np.max` on a one-dimensional array (`np.max` faults on an empty
array; the `[]` case returns a junk value and is never reached by any claim). -/
noncomputable def np_max : List ℝ → ℝ
  | [] => 0
  | x :: xs => xs.foldl max x

/-- Accumulator loop behind `np_argmax`: `b` is the running maximum, `best`
its (first) position, `i` the position of the list head. -/
noncomputable def np_argmax_go : List ℝ → ℝ → ℕ → ℕ → ℕ
  | [], _, best, _ => best
  | x :: xs, b, best, i => if b < x then np_argmax_go xs x i (i + 1) else np_argmax_go xs b best (i + 1)

/-- Model of `np.argmax` on a one-dimensional float array: position of the
first occurrence of the maximum (junk `0` for the empty array, on which NumPy
faults). -/
noncomputable def np_argmax : List ℝ → ℕ
  | [] => 0
  | x :: xs => np_argmax_go xs x 0 1

/-- Model of `np.argmax` on a boolean array: position of the first `true`,
and `0` when every entry is `false`. -/
def np_argmax_bool (l : List Bool) : ℕ := if l.any id then l.findIdx id else 0

/-- Model of `np.cumsum` on a one-dimensional array. -/
noncomputable def np_cumsum (l : List ℝ) : List ℝ := (l.scanl (· + ·) 0).tail

/-- Model of `np.argsort` on a one-dimensional array: the positions that sort
the array ascending; ties keep their original relative order. -/
noncomputable def np_argsort (l : List ℝ) : List ℕ :=
  (List.insertionSort (fun p q : ℕ × ℝ => p.2 ≤ q.2) l.enum).map Prod.fst

/-- Model of `.trace(axis1=1, axis2=2)` on one rectangular matrix: the sum of
the diagonal entries `T[i][i]` for `i < min(rows, cols)`. -/
noncomputable def np_trace (T : List (List ℝ)) : ℝ :=
  ∑ i in Finset.range (min T.length (T.headD []).length), (T.getD i []).getD i 0

/-- Mirrors the refactored
`log_expected_probability(keyword_index_to_log_prob_func, log_probabilities, keyword_indices)`:
the stabilized log-sum-exp of the terms `log_probabilities + f(keyword_indices)`. -/
noncomputable def log_expected_probability (keyword_index_to_log_prob_func : ℕ → ℝ)
    (log_probabilities : List ℝ) (keyword_indices : List ℕ) : ℝ :=
  let log_terms := List.zipWith (fun p k => p + keyword_index_to_log_prob_func k) log_probabilities keyword_indices
  let max_log_term := np_max log_terms
  let log_offset_terms := log_terms.map (fun t => t - max_log_term)
  let offset_expectation := (log_offset_terms.map Real.exp).sum
  Real.log offset_expectation + max_log_term

/-- Mirrors `naive_clue_and_keyword_log_prob(clue_index, keyword_index)`,
elementwise: `np.where(keyword_index == clue_index, np.NZERO, LOG_PROB_ZERO)`
(`np.NZERO` is `-0.0`, i.e. `0` in `ℝ`). -/
noncomputable def naive_clue_and_keyword_log_prob (clue_index keyword_index : ℕ) : ℝ :=
  if keyword_index = clue_index then 0 else LOG_PROB_ZERO

/-- Mirrors the refactored `log_expected_probabilities_codes(...)`: the
broadcast over `r_i, c_i = np.ogrid[...]` yields the matrix whose `(r, c)`
entry is the log-expectation of variable `r` against clue position `c`, and
`log_expected_probabilities[codes].trace(axis1=1, axis2=2)` aggregates it into
one score per code.  The notebook passes `codes=ALL_CODES` by default. -/
noncomputable def log_expected_probabilities_codes
    (clue_and_keyword_to_log_probability_func : ℕ → ℕ → ℝ)
    (random_variables : List NumpyRandomVariable) (clue_indices_arg : List ℕ)
    (codes : List (List ℕ)) : List ℝ :=
  let log_expected_probabilities :=
    random_variables.map (fun random_variable =>
      clue_indices_arg.map (fun clue_index =>
        log_expected_probability (clue_and_keyword_to_log_probability_func clue_index)
          random_variable.log_probabilities random_variable.keyword_indices))
  codes.map (fun c => np_trace (c.map (fun s => log_expected_probabilities.getD s [])))

/-- Mirrors `guess = ALL_CODES[np.argmax(log_expectations)]` (the notebook's
code space is passed as `codes`). -/
noncomputable def guess (log_expectations : List ℝ) (codes : List (List ℕ)) : List ℕ :=
  codes.getD (np_argmax log_expectations) []

/-- Mirrors `guesser_random_variables(keyword_card, word_index=ALL_WORD_INDEX)`:
one degenerate variable `NumpyRandomVariable(np.zeros(1), np.array([word_index[keyword]]))`
per keyword. -/
def guesser_random_variables (keyword_card_arg : List String) (word_index : String → ℕ) :
    List NumpyRandomVariable :=
  keyword_card_arg.map (fun keyword => ⟨[0], [word_index keyword]⟩)

/-- The dataclass instances built by `random_vars_at_least_cumulative_probability`:
because `var_log_probabilities[reduced_keyword_indices]` is advanced indexing
with a single integer array (gathering whole rows along axis 0), their
`log_probabilities` field is a two-dimensional array — one full vocabulary row
per retained position. -/
structure NumpyRandomVariable2D where
  log_probabilities : List (List ℝ)
  keyword_indices : List ℕ

/-- Mirrors `num_indices_for_cumulative_probability(log_probabilties,
keyword_indices_by_decreasing_probability, cumulative_probability)`, row-wise.
Note the source compares the cumulative sum of the sorted LOG probabilities
against `np.log(cumulative_probability)`. -/
noncomputable def num_indices_for_cumulative_probability (log_probabilties : List (List ℝ))
    (keyword_indices_by_decreasing_probability : List (List ℕ))
    (cumulative_probability : ℝ) : List ℕ :=
  let log_probabilties_by_decreasing_probability :=
    (log_probabilties.zip keyword_indices_by_decreasing_probability).map
      (fun rowPair => rowPair.2.map (fun j => rowPair.1.getD j 0))
  let earliest_index :=
    log_probabilties_by_decreasing_probability.map
      (fun row => np_argmax_bool
        ((np_cumsum row).map (fun s => if Real.log cumulative_probability ≤ s then true else false)))
  earliest_index.map (fun i => i + 1)

/-- Mirrors `random_vars_at_least_cumulative_probability(random_variables,
cumulative_probability)`.  The line `var_log_probabilities[reduced_keyword_indices]`
is NumPy advanced indexing with one integer array: it gathers whole ROWS of
`var_log_probabilities` along axis 0, one row per retained position. -/
noncomputable def random_vars_at_least_cumulative_probability
    (random_variables : List NumpyRandomVariable) (cumulative_probability : ℝ) :
    List NumpyRandomVariable2D :=
  let var_log_probabilities := random_variables.map (fun rv => rv.log_probabilities)
  let keyword_indices_by_decreasing_probability :=
    var_log_probabilities.map (fun row => np_argsort (row.map (fun x => -x)))
  let num_indices := num_indices_for_cumulative_probability var_log_probabilities
    keyword_indices_by_decreasing_probability cumulative_probability
  let reduced_keyword_indices :=
    keyword_indices_by_decreasing_probability.map (fun row => row.take (num_indices.foldl max 0))
  let reduced_var_log_probabilities :=
    reduced_keyword_indices.map (fun row => row.map (fun s => var_log_probabilities.getD s []))
  (reduced_var_log_probabilities.zip reduced_keyword_indices).map (fun rowPair => ⟨rowPair.1, rowPair.2⟩)

/-! ### Basic facts about the NumPy helper models -/

theorem sum_map_exp_pos (l : List ℝ) (hl : l ≠ []) : 0 < (l.map Real.exp).sum := by
  refine List.sum_pos _ ?_ ?_
  · intro a ha
    rcases List.mem_map.mp ha with ⟨t, _, rfl⟩
    exact Real.exp_pos t
  · simpa using hl

/-- Shifting every term by a constant before exponentiating and adding the
constant back after the logarithm does not change a log-sum-exp. -/
theorem logsumexp_shift (l : List ℝ) (m : ℝ) (hl : l ≠ []) :
    Real.log ((l.map (fun t => Real.exp (t - m))).sum) + m = Real.log ((l.map Real.exp).sum) := by
  have hmap : l.map (fun t => Real.exp (t - m)) = l.map (fun t => Real.exp t * Real.exp (-m)) := by
    refine List.map_congr_left ?_
    intro t _
    rw [← Real.exp_add, sub_eq_add_neg]
  rw [hmap, List.sum_map_mul_right, Real.log_mul (ne_of_gt (sum_map_exp_pos l hl))
    (Real.exp_ne_zero _), Real.log_exp]
  ring

theorem zipWith_add_ne_nil {f : ℕ → ℝ} {lp : List ℝ} {ki : List ℕ} (h1 : lp ≠ []) (h2 : ki ≠ []) :
    List.zipWith (fun p k => p + f k) lp ki ≠ [] := by
  cases lp with
  | nil => exact absurd rfl h1
  | cons a as =>
    cases ki with
    | nil => exact absurd rfl h2
    | cons b bs => simp

/-- The stabilized engine computes exactly the unshifted log-sum-exp of its terms. -/
theorem log_expected_probability_eq_logsumexp (f : ℕ → ℝ) (lp : List ℝ) (ki : List ℕ)
    (h : List.zipWith (fun p k => p + f k) lp ki ≠ []) :
    log_expected_probability f lp ki =
      Real.log (((List.zipWith (fun p k => p + f k) lp ki).map Real.exp).sum) := by
  have := logsumexp_shift (List.zipWith (fun p k => p + f k) lp ki)
    (np_max (List.zipWith (fun p k => p + f k) lp ki)) h
  simpa [log_expected_probability] using this

/-- On a degenerate (certain) belief the engine returns the heuristic value. -/
theorem log_expected_probability_singleton (f : ℕ → ℝ) (k : ℕ) :
    log_expected_probability f [0] [k] = f k := by
  simp [log_expected_probability, np_max]

/-- Full characterization of the `np_argmax` accumulator loop. -/
theorem np_argmax_go_spec : ∀ (xs : List ℝ) (b : ℝ) (best i : ℕ),
    (np_argmax_go xs b best i = best ∧ ∀ k, k < xs.length → xs.getD k 0 ≤ b) ∨
    (∃ j, j < xs.length ∧ np_argmax_go xs b best i = i + j ∧ b < xs.getD j 0 ∧
      (∀ k, k < xs.length → xs.getD k 0 ≤ xs.getD j 0) ∧
      (∀ k, k < j → xs.getD k 0 < xs.getD j 0)) := by
  intro xs
  induction xs with
  | nil =>
    intro b best i
    left
    constructor
    · rfl
    · intro k hk
      exact absurd hk (by simp)
  | cons y ys ih =>
    intro b best i
    by_cases hby : b < y
    · have hgo : np_argmax_go (y :: ys) b best i = np_argmax_go ys y i (i + 1) := by
        simp [np_argmax_go, hby]
      rcases ih y i (i + 1) with ⟨h1, h2⟩ | ⟨j, hj, hres, hlt, hmax, hfirst⟩
      · right
        refine ⟨0, by simp, ?_, by simpa using hby, ?_, ?_⟩
        · rw [hgo, h1]
          omega
        · intro k hk
          cases k with
          | zero => simp
          | succ k =>
            simp only [List.getD_cons_succ, List.getD_cons_zero]
            exact h2 k (by simpa using hk)
        · intro k hk
          exact absurd hk (Nat.not_lt_zero k)
      · right
        refine ⟨j + 1, by simpa using hj, ?_, ?_, ?_, ?_⟩
        · rw [hgo, hres]
          omega
        · simpa using lt_trans hby hlt
        · intro k hk
          cases k with
          | zero => simpa using le_of_lt hlt
          | succ k =>
            simp only [List.getD_cons_succ]
            exact hmax k (by simpa using hk)
        · intro k hk
          cases k with
          | zero => simpa using hlt
          | succ k =>
            simp only [List.getD_cons_succ]
            exact hfirst k (by omega)
    · have hgo : np_argmax_go (y :: ys) b best i = np_argmax_go ys b best (i + 1) := by
        simp [np_argmax_go, hby]
      have hyb : y ≤ b := not_lt.mp hby
      rcases ih b best (i + 1) with ⟨h1, h2⟩ | ⟨j, hj, hres, hlt, hmax, hfirst⟩
      · left
        refine ⟨by rw [hgo, h1], ?_⟩
        intro k hk
        cases k with
        | zero => simpa using hyb
        | succ k =>
          simp only [List.getD_cons_succ]
          exact h2 k (by simpa using hk)
      · right
        refine ⟨j + 1, by simpa using hj, ?_, ?_, ?_, ?_⟩
        · rw [hgo, hres]
          omega
        · simpa using hlt
        · intro k hk
          cases k with
          | zero => simpa using le_of_lt (lt_of_le_of_lt hyb hlt)
          | succ k =>
            simp only [List.getD_cons_succ]
            exact hmax k (by simpa using hk)
        · intro k hk
          cases k with
          | zero => simpa using lt_of_le_of_lt hyb hlt
          | succ k =>
            simp only [List.getD_cons_succ]
            exact hfirst k (by omega)

/-- On a nonempty list, `np_argmax` returns a valid position that attains the
maximum, and every strictly earlier position is strictly below it: it is the
FIRST occurrence of the maximum. -/
theorem np_argmax_spec (l : List ℝ) (hl : l ≠ []) :
    np_argmax l < l.length ∧
    (∀ k, k < l.length → l.getD k 0 ≤ l.getD (np_argmax l) 0) ∧
    (∀ k, k < np_argmax l → l.getD k 0 < l.getD (np_argmax l) 0) := by
  match l, hl with
  | x :: xs, _ =>
    rcases np_argmax_go_spec xs x 0 1 with ⟨h1, h2⟩ | ⟨j, hj, hres, hlt, hmax, hfirst⟩
    · have hax : np_argmax (x :: xs) = 0 := by
        rw [np_argmax, h1]
      rw [hax]
      refine ⟨by simp, ?_, ?_⟩
      · intro k hk
        cases k with
        | zero => simp
        | succ k =>
          simp only [List.getD_cons_succ, List.getD_cons_zero]
          exact h2 k (by simpa using hk)
      · intro k hk
        exact absurd hk (Nat.not_lt_zero k)
    · have hax : np_argmax (x :: xs) = j + 1 := by
        rw [np_argmax, hres]
        omega
      rw [hax]
      refine ⟨by simpa using hj, ?_, ?_⟩
      · intro k hk
        cases k with
        | zero => simpa using le_of_lt hlt
        | succ k =>
          simp only [List.getD_cons_succ]
          exact hmax k (by simpa using hk)
      · intro k hk
        cases k with
        | zero => simpa using hlt
        | succ k =>
          simp only [List.getD_cons_succ]
          exact hfirst k (by omega)

/-- A position that strictly dominates every other position is the `np_argmax`. -/
theorem np_argmax_eq_of_unique (l : List ℝ) (i : ℕ) (hi : i < l.length)
    (h : ∀ j, j < l.length → j ≠ i → l.getD j 0 < l.getD i 0) : np_argmax l = i := by
  have hne : l ≠ [] := by
    intro e
    rw [e] at hi
    exact absurd hi (by simp)
  obtain ⟨h1, h2, _⟩ := np_argmax_spec l hne
  by_contra hni
  exact absurd (h2 i hi) (not_le.mpr (h _ h1 hni))

/-! ### Engine-level claims -/

theorem zipWith_add_const {f : ℕ → ℝ} {c : ℝ} : ∀ (lp : List ℝ) (ki : List ℕ),
    lp.length = ki.length → (∀ k ∈ ki, f k = c) →
    List.zipWith (fun p k => p + f k) lp ki = lp.map (fun p => p + c) := by
  intro lp
  induction lp with
  | nil =>
    intro ki _ _
    simp
  | cons p ps ih =>
    intro ki hlen hc
    cases ki with
    | nil => simp at hlen
    | cons k ks =>
      simp only [List.zipWith_cons_cons, List.map_cons]
      rw [hc k (by simp), ih ks (by simpa using hlen) (fun k hk => hc k (by simp [hk]))]

/-- When the heuristic is constant on the whole support, the engine returns
that constant plus the log of the total retained probability mass; with unit
mass it returns the constant itself. -/
theorem lse_const_on_support (f : ℕ → ℝ) (c : ℝ) (lp : List ℝ) (ki : List ℕ)
    (hlen : lp.length = ki.length) (hne : lp ≠ [])
    (hconst : ∀ k ∈ ki, f k = c) (hmass : (lp.map Real.exp).sum = 1) :
    log_expected_probability f lp ki = c := by
  have hki : ki ≠ [] := by
    intro e
    rw [e] at hlen
    simp at hlen
    exact hne hlen
  rw [log_expected_probability_eq_logsumexp f lp ki (zipWith_add_ne_nil hne hki),
    zipWith_add_const lp ki hlen hconst]
  have hmap : (lp.map (fun p => p + c)).map Real.exp = lp.map (fun p => Real.exp p * Real.exp c) := by
    rw [List.map_map]
    refine List.map_congr_left ?_
    intro t _
    simp [← Real.exp_add]
  rw [hmap, List.sum_map_mul_right, hmass, one_mul, Real.log_exp]

/-- C2: for every belief (support of (index, log-probability) pairs, both lists
nonempty) and every heuristic score function `f`, the expectation engine
returns `log (Σ_k exp (log_probability_of k + f k))` over the belief's support;
the definition `log_expected_probability` performs exactly the max-shifted
(log-sum-exp stabilized) computation of the source, and this theorem states
that it equals the unshifted log-sum-exp. -/
theorem C2_engine_is_logsumexp (f : ℕ → ℝ) (lp : List ℝ) (ki : List ℕ)
    (h1 : lp ≠ []) (h2 : ki ≠ []) :
    log_expected_probability f lp ki =
      Real.log (((List.zipWith (fun p k => p + f k) lp ki).map Real.exp).sum) :=
  log_expected_probability_eq_logsumexp f lp ki (zipWith_add_ne_nil h1 h2)

theorem C2_engine_is_logsumexp_witness :
    log_expected_probability (fun _ => 0) [0] [0] =
      Real.log (((List.zipWith (fun p k => p + (fun _ : ℕ => (0 : ℝ)) k) [0] [0]).map Real.exp).sum) :=
  C2_engine_is_logsumexp (fun _ => 0) [0] [0] (by simp) (by simp)

/-- C8: for every valid belief (unit probability mass) whose entire support
maps to the log-zero sentinel under the heuristic, the expectation engine
returns the sentinel value itself; the embedded engine is a total function,
so no numeric fault can occur. -/
theorem C8_all_sentinel_support_returns_sentinel (f : ℕ → ℝ) (lp : List ℝ) (ki : List ℕ)
    (hlen : lp.length = ki.length) (hne : lp ≠ [])
    (hsent : ∀ k ∈ ki, f k = LOG_PROB_ZERO) (hmass : (lp.map Real.exp).sum = 1) :
    log_expected_probability f lp ki = LOG_PROB_ZERO :=
  lse_const_on_support f LOG_PROB_ZERO lp ki hlen hne hsent hmass

theorem C8_all_sentinel_support_returns_sentinel_witness :
    log_expected_probability (naive_clue_and_keyword_log_prob 0) [0] [1] = LOG_PROB_ZERO :=
  C8_all_sentinel_support_returns_sentinel (naive_clue_and_keyword_log_prob 0) [0] [1]
    (by simp) (by simp)
    (by
      intro k hk
      simp only [List.mem_singleton] at hk
      simp [hk, naive_clue_and_keyword_log_prob])
    (by simp)

/-- C9 counterexample: with a belief whose support holds the out-of-range
keyword index `7` (vocabulary size 4), the expectation engine does NOT fail:
it returns the ordinary value `LOG_PROB_ZERO` (the source has no
`DimensionMismatchError`, and `naive_clue_and_keyword_log_prob` simply treats
an out-of-range index as a non-match). -/
theorem C9_out_of_range_returns_value :
    log_expected_probability (naive_clue_and_keyword_log_prob 0) [0] [7] = LOG_PROB_ZERO := by
  rw [log_expected_probability_singleton]
  simp [naive_clue_and_keyword_log_prob]

/-- C9 amended: no `DimensionMismatchError` exists in the code; the
expectation engine is total, silently accepts support indices outside the
vocabulary, and (under the naive heuristic, with a unit-mass belief supported
entirely out of range) returns the sentinel rather than failing. -/
theorem C9_amended_engine_total_on_out_of_range (c : ℕ) (lp : List ℝ) (ki : List ℕ)
    (hc : c < 4) (hk : ∀ k ∈ ki, 4 ≤ k) (hlen : lp.length = ki.length) (hne : lp ≠ [])
    (hmass : (lp.map Real.exp).sum = 1) :
    log_expected_probability (naive_clue_and_keyword_log_prob c) lp ki = LOG_PROB_ZERO := by
  refine lse_const_on_support _ _ lp ki hlen hne ?_ hmass
  intro k hkmem
  have hne' : k ≠ c := by
    have := hk k hkmem
    omega
  simp [naive_clue_and_keyword_log_prob, hne']

theorem C9_amended_engine_total_on_out_of_range_witness :
    log_expected_probability (naive_clue_and_keyword_log_prob 0) [0] [5] = LOG_PROB_ZERO :=
  C9_amended_engine_total_on_out_of_range 0 [0] [5] (by omega)
    (by
      intro k hk
      simp only [List.mem_singleton] at hk
      omega)
    (by simp) (by simp) (by simp)

/-! ### Compression claims -/

theorem le_foldl_max_nat : ∀ (l : List ℕ) (b : ℕ), b ≤ l.foldl max b ∧ ∀ x ∈ l, x ≤ l.foldl max b := by
  intro l
  induction l with
  | nil =>
    intro b
    exact ⟨le_refl b, by simp⟩
  | cons y ys ih =>
    intro b
    refine ⟨le_trans (le_max_left b y) (ih (max b y)).1, ?_⟩
    intro x hx
    rcases List.mem_cons.mp hx with rfl | hx
    · exact le_trans (le_max_right _ _) (ih _).1
    · exact (ih (max b y)).2 x hx

theorem map_zip_self_eq {α β γ : Type} (g : α → β) (h : β → α → γ) :
    ∀ l : List α, ((l.map g).zip l).map (fun p => h p.1 p.2) = l.map (fun a => h (g a) a) := by
  intro l
  induction l with
  | nil => simp
  | cons x xs ih => simp [ih]

theorem np_argsort_length (l : List ℝ) : (np_argsort l).length = l.length := by
  simp [np_argsort]

theorem num_indices_length (lps : List (List ℝ)) (kis : List (List ℕ)) (p : ℝ) :
    (num_indices_for_cumulative_probability lps kis p).length = min lps.length kis.length := by
  simp [num_indices_for_cumulative_probability]

/-- Batch compression, rewritten without the intermediate `zip` (the zipped
lists are a map of one another). -/
theorem rvalcp_eq (rvs : List NumpyRandomVariable) (p : ℝ) :
    random_vars_at_least_cumulative_probability rvs p =
      (let var_log_probabilities := rvs.map (fun rv => rv.log_probabilities)
       let kidbp := var_log_probabilities.map (fun row => np_argsort (row.map (fun x => -x)))
       let num_indices := num_indices_for_cumulative_probability var_log_probabilities kidbp p
       (kidbp.map (fun row => row.take (num_indices.foldl max 0))).map
         (fun row => ⟨row.map (fun s => var_log_probabilities.getD s []), row⟩)) := by
  simp only [random_vars_at_least_cumulative_probability]
  exact map_zip_self_eq _ _ _

/-- C10: the prefix length computed for each belief by compression is
`np.argmax(...) + 1`, hence at least 1, for every batch and every threshold;
consequently (for beliefs with a nonempty vocabulary row) every compressed
belief has a nonempty retained support. -/
theorem C10_compression_retains_at_least_one :
    (∀ (lps : List (List ℝ)) (kis : List (List ℕ)) (p : ℝ),
      ∀ n ∈ num_indices_for_cumulative_probability lps kis p, 1 ≤ n) ∧
    (∀ (rvs : List NumpyRandomVariable) (p : ℝ),
      (∀ rv ∈ rvs, rv.log_probabilities ≠ []) →
      ∀ rv2 ∈ random_vars_at_least_cumulative_probability rvs p, rv2.keyword_indices ≠ []) := by
  have hpos : ∀ (lps : List (List ℝ)) (kis : List (List ℕ)) (p : ℝ),
      ∀ n ∈ num_indices_for_cumulative_probability lps kis p, 1 ≤ n := by
    intro lps kis p n hn
    simp only [num_indices_for_cumulative_probability, List.mem_map] at hn
    obtain ⟨a, -, ha⟩ := hn
    omega
  refine ⟨hpos, ?_⟩
  intro rvs p hrows rv2 h2
  rw [rvalcp_eq] at h2
  simp only [List.mem_map] at h2
  obtain ⟨row, hrowmem, hrfl⟩ := h2
  obtain ⟨row0, hrow0, hrfl2⟩ := hrowmem
  obtain ⟨r, ⟨rv, hrv, hrfl4⟩, hrfl3⟩ := hrow0
  have hW : 1 ≤ (num_indices_for_cumulative_probability
      (rvs.map (fun rv => rv.log_probabilities))
      ((rvs.map (fun rv => rv.log_probabilities)).map (fun row => np_argsort (row.map (fun x => -x))))
      p).foldl max 0 := by
    have hne : num_indices_for_cumulative_probability
        (rvs.map (fun rv => rv.log_probabilities))
        ((rvs.map (fun rv => rv.log_probabilities)).map (fun row => np_argsort (row.map (fun x => -x))))
        p ≠ [] := by
      intro e
      have := num_indices_length (rvs.map (fun rv => rv.log_probabilities))
        ((rvs.map (fun rv => rv.log_probabilities)).map (fun row => np_argsort (row.map (fun x => -x)))) p
      rw [e] at this
      simp at this
      have hpos2 : 0 < rvs.length := List.length_pos.mpr (List.ne_nil_of_mem hrv)
      omega
    obtain ⟨n₀, hn₀⟩ := List.exists_mem_of_ne_nil _ hne
    exact le_trans (hpos _ _ _ n₀ hn₀) ((le_foldl_max_nat _ 0).2 n₀ hn₀)
  have hrow0_ne : row0 ≠ [] := by
    intro e
    have : row0.length = 0 := by rw [e]; rfl
    rw [← hrfl3, np_argsort_length] at this
    simp [← hrfl4] at this
    exact hrows rv hrv this
  have htake : row0.take ((num_indices_for_cumulative_probability
      (rvs.map (fun rv => rv.log_probabilities))
      ((rvs.map (fun rv => rv.log_probabilities)).map (fun row => np_argsort (row.map (fun x => -x))))
      p).foldl max 0) ≠ [] := by
    cases row0 with
    | nil => exact absurd rfl hrow0_ne
    | cons x xs =>
      cases hcase : (num_indices_for_cumulative_probability
          (rvs.map (fun rv => rv.log_probabilities))
          ((rvs.map (fun rv => rv.log_probabilities)).map (fun row => np_argsort (row.map (fun x => -x))))
          p).foldl max 0 with
      | zero => rw [hcase] at hW; omega
      | succ w => simp
  rw [← hrfl, ← hrfl2]
  simpa using htake

/-- C3 (divergence witness): for one belief over two words of probability 1/2
each and threshold 0.9, the code retains only 1 entry — it compares the
cumulative sum of LOG probabilities (the log of the product) with
`log 0.9`, which is never reached — so the retained probability mass is
1/2 < 0.9, contradicting the documented intent of accumulating to the
threshold in probability space (which would retain both entries). -/
theorem C3_prefix_mass_below_threshold :
    num_indices_for_cumulative_probability [[Real.log (1/2), Real.log (1/2)]] [[0, 1]] (9/10) = [1] ∧
    ((([Real.log (1/2), Real.log (1/2)] : List ℝ).take 1).map Real.exp).sum < 9/10 := by
  constructor
  · have hlt : -Real.log 2 < Real.log (9/10 : ℝ) := by
      have h := Real.log_lt_log (by norm_num : (0:ℝ) < 1/2) (by norm_num : (1/2 : ℝ) < 9/10)
      rwa [one_div, Real.log_inv] at h
    have hlog2 : (0:ℝ) < Real.log 2 := Real.log_pos (by norm_num)
    have h1 : ¬ (Real.log (9/10 : ℝ) ≤ -Real.log 2) := not_le.mpr hlt
    have h2 : ¬ (Real.log (9/10 : ℝ) + Real.log 2 ≤ -Real.log 2) := by
      refine not_le.mpr ?_
      linarith
    simp [num_indices_for_cumulative_probability, np_cumsum, np_argmax_bool, List.scanl,
      List.findIdx_cons, h1, h2]
  · simp [Real.exp_log (by norm_num : (0:ℝ) < 1/2)]
    norm_num [Real.exp_neg, Real.exp_log]

/-- C4 (divergence witness): compressing the batch
`[⟨[-100, 0], [0, 1]⟩, ⟨[0, -100], [0, 1]⟩]` at threshold 1 retains one index
per variable (index 1 for the first variable, index 0 for the second), but the
advanced-indexing line `var_log_probabilities[reduced_keyword_indices]`
gathers whole rows along axis 0: the first compressed variable stores the
entire log-probability row of the SECOND variable (`[[0, -100]]`, a 1×2
array) instead of the scalar log-probability `0` of its own retained index,
and symmetrically for the second variable. -/
theorem C4_compression_gathers_wrong_rows :
    random_vars_at_least_cumulative_probability
      [⟨[LOG_PROB_ZERO, 0], [0, 1]⟩, ⟨[0, LOG_PROB_ZERO], [0, 1]⟩] 1 =
      [⟨[[0, LOG_PROB_ZERO]], [1]⟩, ⟨[[LOG_PROB_ZERO, 0]], [0]⟩] := by
  simp only [random_vars_at_least_cumulative_probability, num_indices_for_cumulative_probability,
    np_cumsum, np_argmax_bool, np_argsort, LOG_PROB_ZERO]
  norm_num [List.scanl, List.findIdx_cons, List.insertionSort, List.orderedInsert, List.enum,
    List.enumFrom]

/-- C7 counterexample: with the finite log-zero sentinel `LOG_PROB_ZERO = -100`
(the sentinel the repository defines), a full-support belief concentrated on
index 0 with the sentinel at index 1 does NOT produce the same expectation as
the degenerate certain belief at index 0: in exact arithmetic the full-support
value is `log (1 + e^{-200}) > 0` while the degenerate value is `0`. -/
theorem C7_full_support_row_differs :
    log_expected_probability (naive_clue_and_keyword_log_prob 0) [0, LOG_PROB_ZERO] [0, 1] ≠
      log_expected_probability (naive_clue_and_keyword_log_prob 0) [0] [0] := by
  have hRHS : log_expected_probability (naive_clue_and_keyword_log_prob 0) [0] [0] = 0 := by
    rw [log_expected_probability_singleton]
    simp [naive_clue_and_keyword_log_prob]
  have hne : List.zipWith (fun p k => p + naive_clue_and_keyword_log_prob 0 k)
      [(0:ℝ), LOG_PROB_ZERO] [0, 1] ≠ [] := by simp
  rw [hRHS, log_expected_probability_eq_logsumexp _ _ _ hne]
  refine ne_of_gt (Real.log_pos ?_)
  simp [naive_clue_and_keyword_log_prob, LOG_PROB_ZERO]
  nlinarith [Real.exp_pos (-100 + -100 : ℝ), Real.exp_zero]

/-- C7 amended: the degenerate certain belief's expectation-matrix entry equals
the heuristic value `f k` exactly, while the full-support belief with the
finite sentinel `LOG_PROB_ZERO` elsewhere yields a STRICTLY larger entry for
every heuristic whenever the vocabulary has at least two words (the extra
sentinel terms contribute positive probability mass); the two coincide only
when the excluded entries carry exactly zero probability, e.g. the
`-inf` log-probabilities that `np.log(0)` produces in the notebook's
`guesser_random_variable`, or after floating-point underflow. -/
theorem C7_amended_full_support_row_strictly_exceeds (f : ℕ → ℝ) (k n : ℕ)
    (hk : k < n) (hn : 2 ≤ n) :
    log_expected_probability f [0] [k] = f k ∧
    f k < log_expected_probability f
      ((List.range n).map (fun j => if j = k then (0:ℝ) else LOG_PROB_ZERO)) (List.range n) := by
  refine ⟨log_expected_probability_singleton f k, ?_⟩
  have hne : List.zipWith (fun p k' => p + f k')
      ((List.range n).map (fun j => if j = k then (0:ℝ) else LOG_PROB_ZERO)) (List.range n) ≠ [] := by
    rw [List.zipWith_map_left, List.zipWith_same]
    simp only [ne_eq, List.map_eq_nil_iff, List.range_eq_nil]
    omega
  rw [log_expected_probability_eq_logsumexp _ _ _ hne, List.zipWith_map_left, List.zipWith_same,
    List.map_map]
  have hsum : ((List.range n).map
        (Real.exp ∘ fun a => (if a = k then (0:ℝ) else LOG_PROB_ZERO) + f a)).sum
      = ∑ i in Finset.range n, Real.exp ((if i = k then (0:ℝ) else LOG_PROB_ZERO) + f i) := rfl
  rw [hsum]
  have hsplit : ∑ i in Finset.range n, Real.exp ((if i = k then (0:ℝ) else LOG_PROB_ZERO) + f i)
      = Real.exp (f k) + ∑ i in (Finset.range n).erase k, Real.exp (LOG_PROB_ZERO + f i) := by
    rw [← Finset.add_sum_erase _ _ (Finset.mem_range.mpr hk)]
    congr 1
    · simp
    · refine Finset.sum_congr rfl ?_
      intro i hi
      rw [if_neg (Finset.mem_erase.mp hi).1]
  rw [hsplit]
  have hS : 0 < ∑ i in (Finset.range n).erase k, Real.exp (LOG_PROB_ZERO + f i) := by
    refine Finset.sum_pos (fun i _ => Real.exp_pos _) ?_
    have hcard : 0 < ((Finset.range n).erase k).card := by
      rw [Finset.card_erase_of_mem (Finset.mem_range.mpr hk), Finset.card_range]
      omega
    exact Finset.card_pos.mp hcard
  calc f k = Real.log (Real.exp (f k)) := (Real.log_exp _).symm
    _ < _ := Real.log_lt_log (Real.exp_pos _) (by linarith)

theorem C7_amended_full_support_row_strictly_exceeds_witness :
    log_expected_probability (fun _ => (0:ℝ)) [0] [0] = 0 ∧
    (0:ℝ) < log_expected_probability (fun _ => (0:ℝ))
      ((List.range 2).map (fun j => if j = 0 then (0:ℝ) else LOG_PROB_ZERO)) (List.range 2) :=
  C7_amended_full_support_row_strictly_exceeds (fun _ => 0) 0 2 (by omega) (by omega)

/-! ### Decoder claims -/

theorem matrix_getD_eq (h : ℕ → ℕ → ℝ) (rvs : List NumpyRandomVariable) (clue : List ℕ)
    (s : ℕ) (hs : s < rvs.length) :
    (rvs.map (fun rv => clue.map (fun q =>
        log_expected_probability (h q) rv.log_probabilities rv.keyword_indices))).getD s [] =
      clue.map (fun q => log_expected_probability (h q)
        (rvs.getD s ⟨[], []⟩).log_probabilities (rvs.getD s ⟨[], []⟩).keyword_indices) := by
  rw [List.getD_eq_getElem _ _ (by simpa using hs), List.getElem_map,
    List.getD_eq_getElem _ _ hs]

/-- The decoder's `j`-th output entry is the diagonal sum of expectation-matrix
entries selected by the `j`-th code. -/
theorem scores_getD_eq (h : ℕ → ℕ → ℝ) (rvs : List NumpyRandomVariable) (clue : List ℕ)
    (codes : List (List ℕ)) (j : ℕ) (hj : j < codes.length)
    (hlen : (codes.getD j []).length = clue.length)
    (hslots : ∀ s ∈ codes.getD j [], s < rvs.length) :
    (log_expected_probabilities_codes h rvs clue codes).getD j 0 =
      ∑ i in Finset.range (codes.getD j []).length,
        log_expected_probability (h (clue.getD i 0))
          (rvs.getD ((codes.getD j []).getD i 0) ⟨[], []⟩).log_probabilities
          (rvs.getD ((codes.getD j []).getD i 0) ⟨[], []⟩).keyword_indices := by
  simp only [log_expected_probabilities_codes]
  rw [List.getD_eq_getElem _ _ (by simpa using hj), List.getElem_map,
    show codes[j] = codes.getD j [] from (List.getD_eq_getElem codes [] hj).symm]
  rcases hc : codes.getD j [] with _ | ⟨s0, rest⟩
  · simp [np_trace]
  · rw [hc] at hlen hslots
    simp only [List.length_cons] at hlen
    have hs0 : s0 < rvs.length := hslots s0 (by simp)
    simp only [np_trace, List.map_cons, List.headD_cons, List.length_cons, List.length_map]
    rw [matrix_getD_eq h rvs clue s0 hs0]
    simp only [List.length_map]
    rw [← hlen, min_self]
    refine Finset.sum_congr rfl ?_
    intro i hi
    have hi3 : i < rest.length + 1 := by simpa using Finset.mem_range.mp hi
    have hTi : (clue.map (fun q => log_expected_probability (h q)
          (rvs.getD s0 ⟨[], []⟩).log_probabilities (rvs.getD s0 ⟨[], []⟩).keyword_indices) ::
          rest.map (fun s => (rvs.map (fun rv => clue.map (fun q =>
            log_expected_probability (h q) rv.log_probabilities rv.keyword_indices))).getD s [])).getD i [] =
        clue.map (fun q => log_expected_probability (h q)
          (rvs.getD ((s0 :: rest).getD i 0) ⟨[], []⟩).log_probabilities
          (rvs.getD ((s0 :: rest).getD i 0) ⟨[], []⟩).keyword_indices) := by
      cases i with
      | zero => simp
      | succ i =>
        have hi' : i < rest.length := by omega
        simp only [List.getD_cons_succ]
        rw [List.getD_eq_getElem _ _ (by simpa using hi'), List.getElem_map,
          matrix_getD_eq h rvs clue _ (hslots _ (List.mem_cons_of_mem s0 (List.getElem_mem _))),
          List.getD_eq_getElem _ _ hi']
    rw [hTi]
    have hiclue : i < clue.length := by omega
    rw [List.getD_eq_getElem _ _ (by simpa using hiclue), List.getElem_map,
      List.getD_eq_getElem _ _ hiclue]

/-- C1: for every sequence of beliefs, clue index sequence, heuristic and code
space, the decoder's output vector has one entry per code in enumeration
order, and its `j`-th entry is the sum over positions `i` of the
expectation-matrix entries at (slot `code_j(i)`, clue position `i`). -/
theorem C1_decoder_scores_align_with_code_space (h : ℕ → ℕ → ℝ)
    (rvs : List NumpyRandomVariable) (clue : List ℕ) (codes : List (List ℕ))
    (j : ℕ) (hj : j < codes.length)
    (hlen : (codes.getD j []).length = clue.length)
    (hslots : ∀ s ∈ codes.getD j [], s < rvs.length) :
    (log_expected_probabilities_codes h rvs clue codes).length = codes.length ∧
    (log_expected_probabilities_codes h rvs clue codes).getD j 0 =
      ∑ i in Finset.range (codes.getD j []).length,
        log_expected_probability (h (clue.getD i 0))
          (rvs.getD ((codes.getD j []).getD i 0) ⟨[], []⟩).log_probabilities
          (rvs.getD ((codes.getD j []).getD i 0) ⟨[], []⟩).keyword_indices :=
  ⟨by simp [log_expected_probabilities_codes], scores_getD_eq h rvs clue codes j hj hlen hslots⟩

theorem C1_decoder_scores_align_with_code_space_witness :
    (log_expected_probabilities_codes naive_clue_and_keyword_log_prob
        [⟨[0], [0]⟩] [0] [[0]]).length = ([[0]] : List (List ℕ)).length ∧
    (log_expected_probabilities_codes naive_clue_and_keyword_log_prob
        [⟨[0], [0]⟩] [0] [[0]]).getD 0 0 =
      ∑ i in Finset.range (([[0]] : List (List ℕ)).getD 0 []).length,
        log_expected_probability (naive_clue_and_keyword_log_prob (([0] : List ℕ).getD i 0))
          (([⟨[0], [0]⟩] : List NumpyRandomVariable).getD
            ((([[0]] : List (List ℕ)).getD 0 []).getD i 0) ⟨[], []⟩).log_probabilities
          (([⟨[0], [0]⟩] : List NumpyRandomVariable).getD
            ((([[0]] : List (List ℕ)).getD 0 []).getD i 0) ⟨[], []⟩).keyword_indices :=
  C1_decoder_scores_align_with_code_space naive_clue_and_keyword_log_prob
    [⟨[0], [0]⟩] [0] [[0]] 0 (by simp) (by simp) (by simp)

/-- C6: the best guess is read off at `np.argmax` of the score vector, and
`np.argmax` returns the first position attaining the maximum: every position
scores at most the returned one, and every strictly earlier position scores
strictly less — so among tied maximal codes the one earliest in the
enumeration order is returned. -/
theorem C6_tie_break_first_enumerated (h : ℕ → ℕ → ℝ) (rvs : List NumpyRandomVariable)
    (clue : List ℕ) (codes : List (List ℕ)) (scores : List ℝ)
    (hs : scores = log_expected_probabilities_codes h rvs clue codes)
    (hne : codes ≠ []) :
    guess scores codes = codes.getD (np_argmax scores) [] ∧
    np_argmax scores < scores.length ∧
    (∀ k, k < scores.length → scores.getD k 0 ≤ scores.getD (np_argmax scores) 0) ∧
    (∀ k, k < np_argmax scores → scores.getD k 0 < scores.getD (np_argmax scores) 0) := by
  have hsne : scores ≠ [] := by
    rw [hs]
    simpa [log_expected_probabilities_codes] using hne
  obtain ⟨h1, h2, h3⟩ := np_argmax_spec scores hsne
  exact ⟨rfl, h1, h2, h3⟩

theorem C6_tie_break_first_enumerated_witness :
    guess (log_expected_probabilities_codes naive_clue_and_keyword_log_prob [] [] [[], []])
        [[], []] =
      ([[], []] : List (List ℕ)).getD (np_argmax (log_expected_probabilities_codes
        naive_clue_and_keyword_log_prob [] [] [[], []])) [] ∧
    np_argmax (log_expected_probabilities_codes naive_clue_and_keyword_log_prob [] [] [[], []]) <
      (log_expected_probabilities_codes naive_clue_and_keyword_log_prob [] [] [[], []]).length ∧
    (∀ k, k < (log_expected_probabilities_codes naive_clue_and_keyword_log_prob [] [] [[], []]).length →
      (log_expected_probabilities_codes naive_clue_and_keyword_log_prob [] [] [[], []]).getD k 0 ≤
      (log_expected_probabilities_codes naive_clue_and_keyword_log_prob [] [] [[], []]).getD
        (np_argmax (log_expected_probabilities_codes naive_clue_and_keyword_log_prob [] [] [[], []])) 0) ∧
    (∀ k, k < np_argmax (log_expected_probabilities_codes naive_clue_and_keyword_log_prob [] [] [[], []]) →
      (log_expected_probabilities_codes naive_clue_and_keyword_log_prob [] [] [[], []]).getD k 0 <
      (log_expected_probabilities_codes naive_clue_and_keyword_log_prob [] [] [[], []]).getD
        (np_argmax (log_expected_probabilities_codes naive_clue_and_keyword_log_prob [] [] [[], []])) 0) :=
  C6_tie_break_first_enumerated naive_clue_and_keyword_log_prob [] [] [[], []] _ rfl (by simp)

/-! ### The concrete round-trip scenario -/

theorem ALL_CODES_facts : ∀ c ∈ ALL_CODES, c.length = 3 ∧ ∀ s ∈ c, s < 4 := by decide

theorem ALL_CODES_length : ALL_CODES.length = 24 := by decide

theorem ALL_CODES_nodup : ALL_CODES.Nodup := by decide

theorem keyword_index_inj : ∀ a, a < 4 → ∀ b, b < 4 →
    (ALL_WORD_INDEX (keyword_card.getD a "") = ALL_WORD_INDEX (keyword_card.getD b "") ↔ a = b) := by
  decide

theorem naive_clue_of_map (c : List ℕ) :
    (naive_clue_of c).map ALL_WORD_INDEX =
      c.map (fun i => ALL_WORD_INDEX (keyword_card.getD i "")) := by
  simp [naive_clue_of, List.map_map]

theorem guesser_rvs_getD_fields (s : ℕ) (hs : s < 4) :
    ((guesser_random_variables keyword_card ALL_WORD_INDEX).getD s ⟨[], []⟩).log_probabilities = [0] ∧
    ((guesser_random_variables keyword_card ALL_WORD_INDEX).getD s ⟨[], []⟩).keyword_indices =
      [ALL_WORD_INDEX (keyword_card.getD s "")] := by
  have hs4 : s < keyword_card.length := by
    simpa [keyword_card] using hs
  simp only [guesser_random_variables]
  rw [List.getD_eq_getElem _ _ (by simpa using hs4), List.getElem_map,
    List.getD_eq_getElem _ _ hs4]
  exact ⟨rfl, rfl⟩

/-- For the notebook's certain beliefs and naive heuristic, the decoder's
`j`-th score for the clue derived from code `c` is the sum of per-position
match indicators: `0` where the `j`-th code agrees with `c`, the sentinel
where it differs. -/
theorem decode_score_char (c : List ℕ) (hc : c ∈ ALL_CODES) (j : ℕ) (hj : j < 24) :
    (log_expected_probabilities_codes naive_clue_and_keyword_log_prob
      (guesser_random_variables keyword_card ALL_WORD_INDEX)
      ((naive_clue_of c).map ALL_WORD_INDEX) ALL_CODES).getD j 0 =
    ∑ i in Finset.range 3,
      (if (ALL_CODES.getD j []).getD i 0 = c.getD i 0 then (0:ℝ) else LOG_PROB_ZERO) := by
  have hj' : j < ALL_CODES.length := by rw [ALL_CODES_length]; exact hj
  have hjmem : ALL_CODES.getD j [] ∈ ALL_CODES := by
    rw [List.getD_eq_getElem _ _ hj']
    exact List.getElem_mem _
  obtain ⟨hjlen, hjbound⟩ := ALL_CODES_facts _ hjmem
  obtain ⟨hclen, hcbound⟩ := ALL_CODES_facts c hc
  have hcluelen : ((naive_clue_of c).map ALL_WORD_INDEX).length = 3 := by
    simp [naive_clue_of, hclen]
  have hrvslen : (guesser_random_variables keyword_card ALL_WORD_INDEX).length = 4 := by
    simp [guesser_random_variables, keyword_card]
  rw [scores_getD_eq _ _ _ _ j hj' (by rw [hjlen, hcluelen]) (by
    intro s hsmem
    rw [hrvslen]
    exact hjbound s hsmem)]
  rw [hjlen]
  refine Finset.sum_congr rfl ?_
  intro i hi
  have hi3 : i < 3 := Finset.mem_range.mp hi
  have hij : i < (ALL_CODES.getD j []).length := by rw [hjlen]; exact hi3
  have hic : i < c.length := by rw [hclen]; exact hi3
  have hslot : (ALL_CODES.getD j []).getD i 0 < 4 := by
    refine hjbound _ ?_
    rw [List.getD_eq_getElem _ _ hij]
    exact List.getElem_mem _
  have hcslot : c.getD i 0 < 4 := by
    refine hcbound _ ?_
    rw [List.getD_eq_getElem _ _ hic]
    exact List.getElem_mem _
  have hclue_i : ((naive_clue_of c).map ALL_WORD_INDEX).getD i 0 =
      ALL_WORD_INDEX (keyword_card.getD (c.getD i 0) "") := by
    rw [naive_clue_of_map]
    have him : i < (c.map (fun i => ALL_WORD_INDEX (keyword_card.getD i ""))).length := by
      rw [List.length_map]
      exact hic
    rw [List.getD_eq_getElem _ _ him, List.getElem_map, List.getD_eq_getElem _ _ hic]
  rw [hclue_i, (guesser_rvs_getD_fields _ hslot).1, (guesser_rvs_getD_fields _ hslot).2,
    log_expected_probability_singleton]
  simp only [naive_clue_and_keyword_log_prob]
  exact if_congr (keyword_index_inj _ hslot _ hcslot) rfl rfl

/-- The score at a code disagreeing with the clue's source code is negative. -/
theorem decode_score_neg (c : List ℕ) (hc : c ∈ ALL_CODES) (j : ℕ) (hj : j < 24)
    (hne : ALL_CODES.getD j [] ≠ c) :
    (log_expected_probabilities_codes naive_clue_and_keyword_log_prob
      (guesser_random_variables keyword_card ALL_WORD_INDEX)
      ((naive_clue_of c).map ALL_WORD_INDEX) ALL_CODES).getD j 0 < 0 := by
  rw [decode_score_char c hc j hj]
  have hj' : j < ALL_CODES.length := by rw [ALL_CODES_length]; exact hj
  have hjmem : ALL_CODES.getD j [] ∈ ALL_CODES := by
    rw [List.getD_eq_getElem _ _ hj']
    exact List.getElem_mem _
  obtain ⟨hjlen, -⟩ := ALL_CODES_facts _ hjmem
  obtain ⟨hclen, -⟩ := ALL_CODES_facts c hc
  have hdiff : ∃ i, i < 3 ∧ (ALL_CODES.getD j []).getD i 0 ≠ c.getD i 0 := by
    by_contra hall
    push_neg at hall
    refine hne ?_
    refine List.ext_getElem (by rw [hjlen, hclen]) ?_
    intro i hi1 hi2
    have h := hall i (by rw [hjlen] at hi1; exact hi1)
    rwa [List.getD_eq_getElem _ _ hi1, List.getD_eq_getElem _ _ hi2] at h
  obtain ⟨i, hi3, hne_i⟩ := hdiff
  have hlt : ∑ i in Finset.range 3,
      (if (ALL_CODES.getD j []).getD i 0 = c.getD i 0 then (0:ℝ) else LOG_PROB_ZERO) <
      ∑ _i in Finset.range 3, (0:ℝ) := by
    refine Finset.sum_lt_sum ?_ ⟨i, Finset.mem_range.mpr hi3, ?_⟩
    · intro k _
      by_cases hk : (ALL_CODES.getD j []).getD k 0 = c.getD k 0
      · rw [if_pos hk]
      · rw [if_neg hk]
        norm_num [LOG_PROB_ZERO]
    · rw [if_neg hne_i]
      norm_num [LOG_PROB_ZERO]
  simpa using hlt

/-- The round-trip: for every code in the space, decoding the clue read off
the keyword card at that code's positions returns exactly that code. -/
theorem decode_roundtrip (c : List ℕ) (hc : c ∈ ALL_CODES) :
    guess (log_expected_probabilities_codes naive_clue_and_keyword_log_prob
      (guesser_random_variables keyword_card ALL_WORD_INDEX)
      ((naive_clue_of c).map ALL_WORD_INDEX) ALL_CODES) ALL_CODES = c := by
  obtain ⟨i0, hi0', hi0eq⟩ := List.getElem_of_mem hc
  have hi0 : i0 < 24 := by rw [← ALL_CODES_length]; exact hi0'
  have hgetd : ALL_CODES.getD i0 [] = c := by
    rw [List.getD_eq_getElem _ _ hi0']
    exact hi0eq
  have hslen : (log_expected_probabilities_codes naive_clue_and_keyword_log_prob
      (guesser_random_variables keyword_card ALL_WORD_INDEX)
      ((naive_clue_of c).map ALL_WORD_INDEX) ALL_CODES).length = 24 := by
    simp only [log_expected_probabilities_codes, List.length_map]
    exact ALL_CODES_length
  have hscore_i0 : (log_expected_probabilities_codes naive_clue_and_keyword_log_prob
      (guesser_random_variables keyword_card ALL_WORD_INDEX)
      ((naive_clue_of c).map ALL_WORD_INDEX) ALL_CODES).getD i0 0 = 0 := by
    rw [decode_score_char c hc _ hi0, hgetd]
    simp
  have hax : np_argmax (log_expected_probabilities_codes naive_clue_and_keyword_log_prob
      (guesser_random_variables keyword_card ALL_WORD_INDEX)
      ((naive_clue_of c).map ALL_WORD_INDEX) ALL_CODES) = i0 := by
    refine np_argmax_eq_of_unique _ _ (by rw [hslen]; exact hi0) ?_
    intro j hj1 hj2
    rw [hscore_i0]
    have hj24 : j < 24 := by rw [← hslen]; exact hj1
    refine decode_score_neg c hc j hj24 ?_
    intro e
    refine hj2 ?_
    have hj' : j < ALL_CODES.length := by rw [ALL_CODES_length]; exact hj24
    rw [List.getD_eq_getElem _ _ hj'] at e
    rw [← hi0eq] at e
    exact ALL_CODES_nodup.getElem_inj_iff.mp e
  calc guess (log_expected_probabilities_codes naive_clue_and_keyword_log_prob
      (guesser_random_variables keyword_card ALL_WORD_INDEX)
      ((naive_clue_of c).map ALL_WORD_INDEX) ALL_CODES) ALL_CODES
      = ALL_CODES.getD (np_argmax (log_expected_probabilities_codes naive_clue_and_keyword_log_prob
        (guesser_random_variables keyword_card ALL_WORD_INDEX)
        ((naive_clue_of c).map ALL_WORD_INDEX) ALL_CODES)) [] := rfl
    _ = ALL_CODES.getD i0 [] := by rw [hax]
    _ = c := hgetd

/-- C5: decoding with a certain belief per keyword slot and the naive
exact-match heuristic recovers any code from the clue that reads the keywords
at that code's slot positions (round trip over the whole code space); in
particular, for the notebook scenario — vocabulary BOAT:0, CAT:1, RUM:2,
DRAG:3, keyword card (CAT, BOAT, RUM, DRAG), clue indices (0, 3, 1) — the
best code is (1, 3, 0) (position 10 of the enumeration), its log-score is 0,
and every one of the 23 other codes scores strictly below 0. -/
theorem C5_roundtrip_and_concrete_scenario :
    (∀ c ∈ ALL_CODES,
      guess (log_expected_probabilities_codes naive_clue_and_keyword_log_prob
        (guesser_random_variables keyword_card ALL_WORD_INDEX)
        ((naive_clue_of c).map ALL_WORD_INDEX) ALL_CODES) ALL_CODES = c) ∧
    clue_indices = [0, 3, 1] ∧
    ALL_CODES.getD 10 [] = [1, 3, 0] ∧
    (log_expected_probabilities_codes naive_clue_and_keyword_log_prob
      (guesser_random_variables keyword_card ALL_WORD_INDEX) clue_indices ALL_CODES).getD 10 0 = 0 ∧
    guess (log_expected_probabilities_codes naive_clue_and_keyword_log_prob
      (guesser_random_variables keyword_card ALL_WORD_INDEX) clue_indices ALL_CODES) ALL_CODES =
      [1, 3, 0] ∧
    ∀ j, j < 24 → j ≠ 10 →
      (log_expected_probabilities_codes naive_clue_and_keyword_log_prob
        (guesser_random_variables keyword_card ALL_WORD_INDEX) clue_indices ALL_CODES).getD j 0 < 0 := by
  have hclue : clue_indices = (naive_clue_of code).map ALL_WORD_INDEX := rfl
  have hcmem : code ∈ ALL_CODES := by decide
  refine ⟨fun c hc => decode_roundtrip c hc, by decide, by decide, ?_, ?_, ?_⟩
  · rw [hclue, decode_score_char code hcmem 10 (by omega),
      show ALL_CODES.getD 10 [] = code from by decide]
    simp
  · rw [hclue]
    exact decode_roundtrip code hcmem
  · intro j hj hne10
    rw [hclue]
    refine decode_score_neg code hcmem j hj ?_
    have hall : ∀ j, j < 24 → j ≠ 10 → ALL_CODES.getD j [] ≠ code := by decide
    exact hall j hj hne10

theorem C5_roundtrip_and_concrete_scenario_witness :
    guess (log_expected_probabilities_codes naive_clue_and_keyword_log_prob
      (guesser_random_variables keyword_card ALL_WORD_INDEX)
      ((naive_clue_of [0, 1, 2]).map ALL_WORD_INDEX) ALL_CODES) ALL_CODES = [0, 1, 2] :=
  C5_roundtrip_and_concrete_scenario.1 [0, 1, 2] (by decide)

theorem C10_compression_retains_at_least_one_witness :
    (1 ∈ num_indices_for_cumulative_probability [[(0:ℝ)]] [[0]] 1) ∧ 1 ≤ 1 :=
  ⟨by
    simp [num_indices_for_cumulative_probability, np_cumsum, np_argmax_bool, Real.log_one,
      List.scanl, List.findIdx_cons],
   C10_compression_retains_at_least_one.1 [[(0:ℝ)]] [[0]] 1 1 (by
    simp [num_indices_for_cumulative_probability, np_cumsum, np_argmax_bool, Real.log_one,
      List.scanl, List.findIdx_cons])⟩
